import Mathlib

open Matrix

/-
Verification of the algorithmic kernels of the hyperparameter-optimisation
workshop notebooks: the parameter grid generator of Lab00.ipynb
(get_param_grid, get_random_grid) and the Gaussian-process posterior code of
Lab01.ipynb (exponential_cov, conditional, predict).
-/

/-- Cartesian product of a list of candidate-value lists, in the order produced
by `itertools.product(*values)`: the first list varies slowest, the last list
varies fastest. -/
def listProd {α : Type} : List (List α) → List (List α)
  | [] => [[]]
  | l :: ls => l.flatMap fun v => (listProd ls).map fun vs => v :: vs

/-- Lab00 `get_param_grid(params)`: `keys, values = zip(*params.items())`
followed by `[dict(zip(keys, v)) for v in itertools.product(*values)]`.
The parameter space is the insertion-ordered association list of
(name, candidate list) pairs, and each experiment (a `dict` rebuilt by
`dict(zip(keys, v))`) is the association list `keys.zip v`.  On an empty
mapping the unpacking `keys, values = zip(*params.items())` raises
`ValueError`, modelled as `none`. -/
def get_param_grid {α : Type} (params : List (String × List α)) :
    Option (List (List (String × α))) :=
  if params.isEmpty then none
  else some ((listProd (params.map Prod.snd)).map fun v => (params.map Prod.fst).zip v)

/-- Indexed selection from a population: `pop[i]` for each index in turn, with
`none` for an out-of-range index (Python `IndexError`). -/
def getIndices {α : Type} (pop : List α) : List ℕ → Option (List α)
  | [] => some []
  | i :: is => (pop.get? i).bind fun a => (getIndices pop is).map fun as => a :: as

/-- Model of `random.choices(pop, k=n)` with uniform weights: CPython evaluates
`[pop[floor(random() * len(pop))] for i in _repeat(None, k)]`.  The random
source is abstracted as the function `u` sending each draw number to the index
`floor(random() * len(pop))` it selects, and `_repeat(None, k)` makes
`max(k, 0)` draws (for a negative `k` it yields nothing at all). -/
def random_choices {α : Type} (pop : List α) (n : ℤ) (u : ℕ → ℕ) : Option (List α) :=
  getIndices pop ((List.range n.toNat).map u)

/-- Lab00 `get_random_grid(params, n)`: build the full grid with
`get_param_grid`, then `random.choices(experiments, k=n)`. -/
def get_random_grid {α : Type} (params : List (String × List α)) (n : ℤ) (u : ℕ → ℕ) :
    Option (List (List (String × α))) :=
  (get_param_grid params).bind fun experiments => random_choices experiments n u

/-! Helper lemmas about the grid generator. -/

lemma length_bind_const {α β : Type} (f : α → List β) (c : ℕ) (h : ∀ a, (f a).length = c) :
    ∀ l : List α, (l.flatMap f).length = l.length * c
  | [] => by simp
  | a :: t => by
      simp only [List.flatMap_cons, List.length_append, h a, length_bind_const f c h t,
        List.length_cons]
      ring

lemma listProd_length {α : Type} : ∀ ls : List (List α),
    (listProd ls).length = (ls.map List.length).prod
  | [] => by simp [listProd]
  | l :: ls => by
      rw [listProd, length_bind_const _ (listProd ls).length (fun a => by simp) l,
        listProd_length ls]
      simp

lemma listProd_of_nil_mem {α : Type} : ∀ ls : List (List α), ([] : List α) ∈ ls →
    listProd ls = []
  | l :: ls, h => by
      rcases List.mem_cons.mp h with h1 | h2
      · rw [listProd, ← h1]
        simp
      · rw [listProd, listProd_of_nil_mem ls h2]
        simp

lemma getIndices_spec {α : Type} (pop : List α) : ∀ is : List ℕ,
    (∀ i ∈ is, i < pop.length) →
    ∃ res, getIndices pop is = some res ∧ res.length = is.length ∧ ∀ e ∈ res, e ∈ pop
  | [], _ => ⟨[], rfl, rfl, by simp⟩
  | i :: is, h => by
      have hi : i < pop.length := h i (List.mem_cons_self i is)
      have hrest := getIndices_spec pop is fun j hj => h j (List.mem_cons_of_mem i hj)
      rcases hrest with ⟨res, hres, hlen, hmem⟩
      refine ⟨pop.get ⟨i, hi⟩ :: res, ?_, by simp [hlen], ?_⟩
      · rw [getIndices, List.get?_eq_get hi, hres]
        rfl
      · intro e he
        rcases List.mem_cons.mp he with h1 | h2
        · rw [h1]; exact pop.get_mem _ _
        · exact hmem e h2

/-! ## Claim C3 -/

/-- C3: for every non-empty parameter space in which every candidate-value list
is non-empty, `get_param_grid` succeeds and the number of experiments it
returns equals the product of the lengths of all the value lists. -/
theorem get_param_grid_length {α : Type} (params : List (String × List α))
    (hp : params ≠ []) (hv : ∀ p ∈ params, p.2 ≠ []) :
    ∃ g, get_param_grid params = some g ∧
      g.length = (params.map fun p => p.2.length).prod := by
  refine ⟨(listProd (params.map Prod.snd)).map fun v => (params.map Prod.fst).zip v,
    ?_, ?_⟩
  · rw [get_param_grid, if_neg (by simpa [List.isEmpty_iff] using hp)]
  · rw [List.length_map, listProd_length, List.map_map]
    rfl

/-- Witness for C3 at the concrete space {a: [1,2], b: [10,20]}. -/
theorem get_param_grid_length_witness :
    ([("a", [1, 2]), ("b", [10, 20])] : List (String × List ℕ)) ≠ [] ∧
    (∀ p ∈ ([("a", [1, 2]), ("b", [10, 20])] : List (String × List ℕ)), p.2 ≠ []) ∧
    ∃ g, get_param_grid [("a", [1, 2]), ("b", [10, 20])] = some g ∧
      g.length = ([("a", [1, 2]), ("b", [10, 20])].map fun p => p.2.length).prod :=
  ⟨by simp, by simp, get_param_grid_length _ (by simp) (by simp)⟩

/-! ## Claim C4 -/

lemma flatMap_mk_singleton {α : Type} : ∀ l : List α,
    (l.flatMap fun v => [[v]]) = l.map fun v => [v]
  | [] => rfl
  | a :: t => by simp [flatMap_mk_singleton t]

lemma listProd_append_single {α : Type} (l : List α) : ∀ ls : List (List α),
    listProd (ls ++ [l]) = (listProd ls).flatMap fun vs => l.map fun w => vs ++ [w]
  | [] => by
      show listProd [l] = _
      show (l.flatMap fun v => [[v]]) = _
      rw [flatMap_mk_singleton]
      simp [listProd]
  | l0 :: ls => by
      have ih := listProd_append_single l ls
      show (l0.flatMap fun v => (listProd (ls ++ [l])).map fun vs => v :: vs) = _
      rw [ih]
      show _ = (l0.flatMap fun v => (listProd ls).map fun vs => v :: vs).flatMap
        fun vs => l.map fun w => vs ++ [w]
      rw [List.flatMap_assoc]
      apply List.flatMap_congr
      intro v _
      rw [List.map_flatMap, List.flatMap_map]
      apply List.flatMap_congr
      intro vs _
      simp [List.map_map, Function.comp]

lemma listProd_mem_length {α : Type} : ∀ (ls : List (List α)) (vs : List α),
    vs ∈ listProd ls → vs.length = ls.length
  | [], vs, h => by
      simp only [listProd, List.mem_singleton] at h
      simp [h]
  | l :: ls, vs, h => by
      simp only [listProd, List.mem_flatMap, List.mem_map] at h
      obtain ⟨v, _, vs2, hvs2, heq⟩ := h
      rw [← heq]
      simp [listProd_mem_length ls vs2 hvs2]

lemma grid_append_single {α : Type} (keys : List String) (values : List (List α))
    (b : String) (bs : List α) (hk : keys.length = values.length) :
    (listProd (values ++ [bs])).map (fun v => (keys ++ [b]).zip v) =
      ((listProd values).map fun v => keys.zip v).flatMap
        fun e => bs.map fun w => e ++ [(b, w)] := by
  rw [listProd_append_single, List.map_flatMap, List.flatMap_map]
  apply List.flatMap_congr
  intro vs hvs
  have hlen : keys.length = vs.length := by
    rw [hk, listProd_mem_length values vs hvs]
  rw [List.map_map]
  apply List.map_congr_left
  intro w _
  show (keys ++ [b]).zip (vs ++ [w]) = keys.zip vs ++ [(b, w)]
  rw [List.zip_append hlen]
  rfl

/-- C4: `get_param_grid` is deterministic (in this pure model, a consequence of
its being a function of the insertion-ordered space alone), and it enumerates
the Cartesian product in the standard odometer order, at every arity: a
single-parameter space lists its values in their declared order, and appending
a last-declared parameter `(b, bs)` to any space turns each earlier experiment
`e` into the consecutive block `e ++ [(b, w)]` for `w` in `bs` — so the
last-declared parameter varies fastest and earlier parameters are held fixed
longest; by induction over these two parts the whole order is determined for
every parameter space.  On the concrete space {a: [1,2], b: [10,20]} the
result is exactly [{a:1,b:10}, {a:1,b:20}, {a:2,b:10}, {a:2,b:20}] in that
order. -/
theorem get_param_grid_odometer_order :
    (∀ (α : Type) (p q : List (String × List α)),
      p = q → get_param_grid p = get_param_grid q) ∧
    (∀ (α : Type) (ls : List (List α)) (l : List α),
      listProd (ls ++ [l]) = (listProd ls).flatMap fun vs => l.map fun w => vs ++ [w]) ∧
    (∀ (α : Type) (params : List (String × List α)) (g : List (List (String × α)))
      (b : String) (bs : List α),
      get_param_grid params = some g →
      get_param_grid (params ++ [(b, bs)]) =
        some (g.flatMap fun e => bs.map fun w => e ++ [(b, w)])) ∧
    (∀ (α : Type) (a : String) (as : List α),
      get_param_grid [(a, as)] = some (as.map fun v => [(a, v)])) ∧
    get_param_grid [("a", [1, 2]), ("b", [10, 20])] =
      some [[("a", 1), ("b", 10)], [("a", 1), ("b", 20)],
            [("a", 2), ("b", 10)], [("a", 2), ("b", 20)]] := by
  refine ⟨fun α p q h => congrArg get_param_grid h,
    fun α ls l => listProd_append_single l ls, ?_, ?_, by decide⟩
  · intro α params g b bs hg
    cases params with
    | nil => simp [get_param_grid] at hg
    | cons ph pt =>
      rw [get_param_grid, if_neg (by simp)] at hg
      obtain rfl := Option.some.inj hg
      rw [get_param_grid, if_neg (by simp)]
      congr 1
      rw [List.map_append, List.map_append]
      exact grid_append_single ((ph :: pt).map Prod.fst) ((ph :: pt).map Prod.snd)
        b bs (by simp)
  · intro α a as
    rw [get_param_grid, if_neg (by simp)]
    congr 1
    simp only [List.map_cons, List.map_nil]
    have h1 : listProd [as] = as.map fun v => [v] := by
      show (as.flatMap fun v => [[v]]) = _
      exact flatMap_mk_singleton as
    rw [h1, List.map_map]
    apply List.map_congr_left
    intro v _
    rfl

/-- Witness for C4: the append characterization applied to the concrete space
{a: [1,2]} extended by the last-declared parameter (b, [10,20]). -/
theorem get_param_grid_odometer_order_witness :
    get_param_grid [("a", [1, 2])] = some [[("a", (1 : ℕ))], [("a", 2)]] ∧
    get_param_grid ([("a", [1, 2])] ++ [("b", [10, 20])]) =
      some (([[("a", (1 : ℕ))], [("a", 2)]]).flatMap
        fun e => [10, 20].map fun w => e ++ [("b", w)]) :=
  ⟨by decide,
    get_param_grid_odometer_order.2.2.1 ℕ [("a", [1, 2])] [[("a", 1)], [("a", 2)]]
      "b" [10, 20] (by decide)⟩

/-! ## Claim C7 (corrected) -/

/-- Counterexample for C7: on the space {a: []} (one parameter with an empty
candidate list) `get_param_grid` does not fail: it returns the empty list of
experiments as a normal result. -/
theorem get_param_grid_empty_values_cex :
    get_param_grid [("a", ([] : List ℕ))] = some [] ∧
    get_param_grid [("a", ([] : List ℕ))] ≠ none := by
  constructor
  · rfl
  · simp [get_param_grid]

/-- C7 amended: for every non-empty parameter space in which some parameter's
candidate-value list is empty, `get_param_grid` returns the empty experiment
list as a normal result (no error is raised). -/
theorem get_param_grid_empty_values_returns_nil {α : Type}
    (params : List (String × List α)) (hp : params ≠ [])
    (h : ∃ p ∈ params, p.2 = []) :
    get_param_grid params = some [] := by
  rw [get_param_grid, if_neg (by simpa [List.isEmpty_iff] using hp)]
  rcases h with ⟨p, hmem, hnil⟩
  rw [listProd_of_nil_mem]
  · rfl
  · exact hnil ▸ List.mem_map_of_mem Prod.snd hmem

/-- Witness for the amended C7 at the concrete space {a: []}. -/
theorem get_param_grid_empty_values_returns_nil_witness :
    ([("a", ([] : List ℕ))] : List (String × List ℕ)) ≠ [] ∧
    (∃ p ∈ ([("a", ([] : List ℕ))] : List (String × List ℕ)), p.2 = []) ∧
    get_param_grid [("a", ([] : List ℕ))] = some [] :=
  ⟨by simp, ⟨("a", []), by simp⟩,
    get_param_grid_empty_values_returns_nil _ (by simp) ⟨("a", []), by simp⟩⟩

/-! ## Claim C8 (corrected) -/

/-- Counterexample for C8: with a negative requested sample count,
`get_random_grid` does not fail: at the space {a: [1]} with n = -1 it returns
the empty experiment list as a normal result. -/
theorem get_random_grid_negative_cex :
    get_random_grid [("a", [(1 : ℕ)])] (-1) (fun _ => 0) = some [] := by
  rfl

/-- C8 amended: for every parameter space on which the full grid succeeds and
every negative sample count n < 0, `get_random_grid` returns the empty
experiment list as a normal result (`random.choices` makes no draws for a
negative k; no error is raised). -/
theorem get_random_grid_negative_returns_nil {α : Type}
    (params : List (String × List α)) (n : ℤ) (u : ℕ → ℕ) (hn : n < 0)
    (g : List (List (String × α))) (hg : get_param_grid params = some g) :
    get_random_grid params n u = some [] := by
  rw [get_random_grid, hg, Option.some_bind, random_choices, Int.toNat_of_nonpos hn.le]
  rfl

/-- Witness for the amended C8 at the concrete space {a: [1]} with n = -1. -/
theorem get_random_grid_negative_returns_nil_witness :
    ((-1 : ℤ) < 0) ∧
    get_param_grid [("a", [(1 : ℕ)])] = some [[("a", 1)]] ∧
    get_random_grid [("a", [(1 : ℕ)])] (-1) (fun _ => 0) = some [] :=
  ⟨by decide, by decide,
    get_random_grid_negative_returns_nil _ (-1) (fun _ => 0) (by decide)
      [[("a", 1)]] (by decide)⟩

/-! ## Claim C6 -/

/-- C6: for every non-empty parameter space with non-empty value lists and
every n ≥ 0, `get_random_grid` returns exactly n experiments, each of which is
an element of the full grid, whatever indices the random source draws (every
draw `floor(random() * len)` is a valid index); and, draws being made with
replacement, duplicates among the results can occur, as on the space
{a: [1,2]} with n = 2 when both draws select index 0. -/
theorem get_random_grid_spec :
    (∀ (α : Type) (params : List (String × List α)) (n : ℤ) (u : ℕ → ℕ)
      (g : List (List (String × α))),
      get_param_grid params = some g → 0 ≤ n → (∀ i, u i < g.length) →
      ∃ res, get_random_grid params n u = some res ∧
        (res.length : ℤ) = n ∧ ∀ e ∈ res, e ∈ g) ∧
    (get_random_grid [("a", [1, 2])] 2 (fun _ => 0) =
        some [[("a", (1 : ℕ))], [("a", 1)]] ∧
      ¬ ([[("a", (1 : ℕ))], [("a", 1)]] : List (List (String × ℕ))).Nodup) := by
  constructor
  · intro α params n u g hg hn hu
    rcases getIndices_spec g ((List.range n.toNat).map u)
        (fun i hi => by
          rcases List.mem_map.mp hi with ⟨j, _, hj⟩
          exact hj ▸ hu j) with ⟨res, hres, hlen, hmem⟩
    refine ⟨res, ?_, ?_, hmem⟩
    · rw [get_random_grid, hg]
      exact hres
    · rw [hlen, List.length_map, List.length_range, Int.toNat_of_nonneg hn]
  · exact ⟨by decide, by decide⟩

/-- Witness for C6 at the concrete space {a: [1,2]} with n = 2 and a random
source that always draws index 0. -/
theorem get_random_grid_spec_witness :
    get_param_grid [("a", [1, 2])] = some [[("a", (1 : ℕ))], [("a", 2)]] ∧
    (0 : ℤ) ≤ 2 ∧
    ∃ res, get_random_grid [("a", [1, 2])] 2 (fun _ => 0) = some res ∧
      (res.length : ℤ) = 2 ∧ ∀ e ∈ res, e ∈ [[("a", (1 : ℕ))], [("a", 2)]] :=
  ⟨by decide, by decide,
    get_random_grid_spec.1 ℕ _ 2 (fun _ => 0) [[("a", 1)], [("a", 2)]] (by decide)
      (by decide) (fun i => by norm_num)⟩

/-! ## Gaussian-process posterior engine (Lab01.ipynb) -/

/-- Lab01 `exponential_cov(x, y, θ)` at a single pair of points:
`θ[0] * np.exp(-0.5 * θ[1] * np.subtract.outer(x, y)**2)` with scalar
arguments. -/
noncomputable def exponential_cov_at (x y : ℝ) (θ : Fin 2 → ℝ) : ℝ :=
  θ 0 * Real.exp (-0.5 * θ 1 * (x - y) ^ 2)

/-- Lab01 `exponential_cov(x, y, θ)` on point vectors: `np.subtract.outer`
broadcasts to the matrix of pairwise differences, so entry (i, j) is the kernel
value at (x i, y j). -/
noncomputable def exponential_cov {m n : ℕ} (x : Fin m → ℝ) (y : Fin n → ℝ)
    (θ : Fin 2 → ℝ) : Matrix (Fin m) (Fin n) ℝ :=
  Matrix.of fun i j => exponential_cov_at (x i) (y j) θ

/-- Lab01 `conditional(x_new, x, y, params)`:
`Sigma_xy = exponential_cov(x_new, x, params)`,
`Sigma_y = exponential_cov(x, x, params)`,
`Sigma_x = exponential_cov(x_new, x_new, params)`,
`mu = np.linalg.inv(Sigma_y).dot(Sigma_xy.T).T.dot(y)`,
`sigma = Sigma_x - Sigma_xy.dot(np.linalg.inv(Sigma_y).dot(Sigma_xy.T))`,
returning the pair `(mu, sigma)` (the trailing `squeeze()` calls only drop
singleton axes). -/
noncomputable def conditional {q n : ℕ} (x_new : Fin q → ℝ) (x : Fin n → ℝ)
    (y : Fin n → ℝ) (params : Fin 2 → ℝ) : (Fin q → ℝ) × Matrix (Fin q) (Fin q) ℝ :=
  let Sigma_xy := exponential_cov x_new x params
  let Sigma_y := exponential_cov x x params
  let Sigma_x := exponential_cov x_new x_new params
  ((Sigma_y⁻¹ * Sigma_xyᵀ)ᵀ *ᵥ y,
   Sigma_x - Sigma_xy * (Sigma_y⁻¹ * Sigma_xyᵀ))

/-- Lab01 `predict(x, data, kernel, params, sigma, t)`:
`k = [kernel(x, y, params) for y in data]`, `Sinv = np.linalg.inv(sigma)`,
`y_pred = np.dot(k, Sinv).dot(t)`,
`sigma_new = kernel(x, x, params) - np.dot(k, Sinv).dot(k)`. -/
noncomputable def predict {n : ℕ} (x : ℝ) (data : Fin n → ℝ)
    (kernel : ℝ → ℝ → (Fin 2 → ℝ) → ℝ) (params : Fin 2 → ℝ)
    (sigma : Matrix (Fin n) (Fin n) ℝ) (t : Fin n → ℝ) : ℝ × ℝ :=
  let k : Fin n → ℝ := fun i => kernel x (data i) params
  let Sinv := sigma⁻¹
  ((k ᵥ* Sinv) ⬝ᵥ t, kernel x x params - (k ᵥ* Sinv) ⬝ᵥ k)

/-! Helper lemmas about the kernel matrix. -/

lemma exponential_cov_self_transpose {n : ℕ} (x : Fin n → ℝ) (θ : Fin 2 → ℝ) :
    (exponential_cov x x θ)ᵀ = exponential_cov x x θ := by
  ext i j
  simp only [Matrix.transpose_apply, exponential_cov, Matrix.of_apply, exponential_cov_at]
  have h : -0.5 * θ 1 * (x j - x i) ^ 2 = -0.5 * θ 1 * (x i - x j) ^ 2 := by ring
  rw [h]

/-! ## Claim C9 -/

/-- C9: for every point vector X and every kernel parameter vector θ, the
covariance matrix `exponential_cov(X, X, θ)` is symmetric: its (i, j) entry
equals its (j, i) entry (exactly, in real arithmetic). -/
theorem exponential_cov_symmetric {n : ℕ} (x : Fin n → ℝ) (θ : Fin 2 → ℝ)
    (i j : Fin n) :
    exponential_cov x x θ i j = exponential_cov x x θ j i := by
  have h := congrFun (congrFun (exponential_cov_self_transpose x θ) i) j
  simpa using h.symm

/-! ## Claim C1 -/

/-- C1: for every kernel parameter vector θ, non-empty observed inputs x with
invertible covariance matrix Σ_y, outputs y of matching length, and query
points x_new, `conditional` returns the posterior mean
Σ_xy · Σ_y⁻¹ · y and posterior covariance Σ_x − Σ_xy · Σ_y⁻¹ · Σ_xyᵀ;
in particular the code's `inv(Sigma_y).dot(Sigma_xy.T).T.dot(y)` equals the
spec's Σ_xy · Σ_y⁻¹ · y. -/
theorem conditional_matches_spec_formulas {q n : ℕ} (hn : 0 < n)
    (x_new : Fin q → ℝ) (x : Fin n → ℝ) (y : Fin n → ℝ) (θ : Fin 2 → ℝ)
    (hdet : IsUnit (exponential_cov x x θ).det) :
    (conditional x_new x y θ).1 =
      (exponential_cov x_new x θ * (exponential_cov x x θ)⁻¹) *ᵥ y ∧
    (conditional x_new x y θ).2 =
      exponential_cov x_new x_new θ -
        exponential_cov x_new x θ * (exponential_cov x x θ)⁻¹ *
          (exponential_cov x_new x θ)ᵀ := by
  constructor
  · show ((exponential_cov x x θ)⁻¹ * (exponential_cov x_new x θ)ᵀ)ᵀ *ᵥ y = _
    rw [Matrix.transpose_mul, Matrix.transpose_transpose, Matrix.transpose_nonsing_inv,
      exponential_cov_self_transpose]
  · show exponential_cov x_new x_new θ -
        exponential_cov x_new x θ *
          ((exponential_cov x x θ)⁻¹ * (exponential_cov x_new x θ)ᵀ) = _
    rw [Matrix.mul_assoc]

lemma exponential_cov_single_det :
    (exponential_cov ![(0 : ℝ)] ![(0 : ℝ)] ![1, 1]).det = 1 := by
  rw [Matrix.det_fin_one]
  simp [exponential_cov, exponential_cov_at]

lemma exponential_cov_single_isUnit :
    IsUnit (exponential_cov ![(0 : ℝ)] ![(0 : ℝ)] ![1, 1]).det := by
  rw [exponential_cov_single_det]
  exact isUnit_one

/-- Witness for C1 at a single observed point x = [0], y = [1], θ = [1, 1],
query [0]. -/
theorem conditional_matches_spec_formulas_witness :
    0 < 1 ∧ IsUnit (exponential_cov ![(0 : ℝ)] ![(0 : ℝ)] ![1, 1]).det ∧
    ((conditional ![(0 : ℝ)] ![(0 : ℝ)] ![1] ![1, 1]).1 =
      (exponential_cov ![(0 : ℝ)] ![(0 : ℝ)] ![1, 1] *
        (exponential_cov ![(0 : ℝ)] ![(0 : ℝ)] ![1, 1])⁻¹) *ᵥ ![1] ∧
    (conditional ![(0 : ℝ)] ![(0 : ℝ)] ![1] ![1, 1]).2 =
      exponential_cov ![(0 : ℝ)] ![(0 : ℝ)] ![1, 1] -
        exponential_cov ![(0 : ℝ)] ![(0 : ℝ)] ![1, 1] *
          (exponential_cov ![(0 : ℝ)] ![(0 : ℝ)] ![1, 1])⁻¹ *
          (exponential_cov ![(0 : ℝ)] ![(0 : ℝ)] ![1, 1])ᵀ) :=
  ⟨Nat.one_pos, exponential_cov_single_isUnit,
    conditional_matches_spec_formulas Nat.one_pos _ _ _ _
      exponential_cov_single_isUnit⟩

/-! ## Claim C2 -/

/-- C2: with an empty list of observations, `conditional` returns the prior:
posterior mean identically zero and posterior covariance equal to the prior
covariance of the query points (`np.linalg.inv` of the 0×0 matrix is the 0×0
matrix, the 0-fold sums in the products are all zero, and no failure occurs). -/
theorem conditional_no_observations {q : ℕ} (x_new : Fin q → ℝ) (x : Fin 0 → ℝ)
    (y : Fin 0 → ℝ) (θ : Fin 2 → ℝ) :
    (conditional x_new x y θ).1 = 0 ∧
    (conditional x_new x y θ).2 = exponential_cov x_new x_new θ := by
  constructor
  · funext i
    show (((exponential_cov x x θ)⁻¹ * (exponential_cov x_new x θ)ᵀ)ᵀ *ᵥ y) i = _
    simp [Matrix.mulVec, Matrix.dotProduct]
  · show exponential_cov x_new x_new θ -
        exponential_cov x_new x θ *
          ((exponential_cov x x θ)⁻¹ * (exponential_cov x_new x θ)ᵀ) = _
    have h : exponential_cov x_new x θ *
        ((exponential_cov x x θ)⁻¹ * (exponential_cov x_new x θ)ᵀ) = 0 := by
      ext i j
      simp [Matrix.mul_apply]
    rw [h, sub_zero]

/-! Positive definiteness of the squared-exponential Gram matrix at distinct
points, via the power series of `exp` and a Vandermonde argument. -/

lemma real_exp_eq_tsum (t : ℝ) :
    Real.exp t = tsum (fun k : ℕ => t ^ k / (Nat.factorial k : ℝ)) := by
  rw [Real.exp_eq_exp_ℝ]
  simp only [NormedSpace.exp_eq_tsum_div]

lemma exp_quad_term {n : ℕ} (x : Fin n → ℝ) (θ : Fin 2 → ℝ) (a : Fin n → ℝ)
    (i j : Fin n) :
    a i * (exponential_cov x x θ i j * a j) =
      tsum (fun k : ℕ => θ 0 * ((a i * Real.exp (-0.5 * θ 1 * x i ^ 2)) *
          (a j * Real.exp (-0.5 * θ 1 * x j ^ 2))) *
        ((θ 1 * (x i * x j)) ^ k / (Nat.factorial k : ℝ))) := by
  have h1 : a i * (exponential_cov x x θ i j * a j) =
      θ 0 * ((a i * Real.exp (-0.5 * θ 1 * x i ^ 2)) *
        (a j * Real.exp (-0.5 * θ 1 * x j ^ 2))) * Real.exp (θ 1 * (x i * x j)) := by
    simp only [exponential_cov, Matrix.of_apply, exponential_cov_at]
    rw [show -0.5 * θ 1 * (x i - x j) ^ 2 =
        -0.5 * θ 1 * x i ^ 2 + (-0.5 * θ 1 * x j ^ 2 + θ 1 * (x i * x j)) from by ring,
      Real.exp_add, Real.exp_add]
    ring
  rw [h1, real_exp_eq_tsum (θ 1 * (x i * x j)), ← tsum_mul_left]

lemma exp_quad_sum_eq {n : ℕ} (x : Fin n → ℝ) (θ : Fin 2 → ℝ) (b : Fin n → ℝ)
    (k : ℕ) :
    (∑ i, ∑ j, θ 0 * (b i * b j) * ((θ 1 * (x i * x j)) ^ k / (Nat.factorial k : ℝ))) =
      θ 0 * (θ 1 ^ k / (Nat.factorial k : ℝ)) * (∑ i, b i * x i ^ k) ^ 2 := by
  rw [sq, Finset.sum_mul_sum, Finset.mul_sum]
  refine Finset.sum_congr rfl fun i _ => ?_
  rw [Finset.mul_sum]
  refine Finset.sum_congr rfl fun j _ => ?_
  simp only [mul_pow]
  ring

lemma exponential_cov_quadratic_form {n : ℕ} (x : Fin n → ℝ) (θ : Fin 2 → ℝ)
    (a : Fin n → ℝ) :
    dotProduct (star a) (exponential_cov x x θ *ᵥ a) =
      tsum (fun k : ℕ => θ 0 * (θ 1 ^ k / (Nat.factorial k : ℝ)) *
        (∑ i, (a i * Real.exp (-0.5 * θ 1 * x i ^ 2)) * x i ^ k) ^ 2) := by
  have hsumm : ∀ i j : Fin n, Summable fun k : ℕ =>
      θ 0 * ((a i * Real.exp (-0.5 * θ 1 * x i ^ 2)) *
        (a j * Real.exp (-0.5 * θ 1 * x j ^ 2))) *
      ((θ 1 * (x i * x j)) ^ k / (Nat.factorial k : ℝ)) := fun i j =>
    (Real.summable_pow_div_factorial (θ 1 * (x i * x j))).mul_left _
  calc dotProduct (star a) (exponential_cov x x θ *ᵥ a)
      = ∑ i, ∑ j, a i * (exponential_cov x x θ i j * a j) := by
        simp [Matrix.dotProduct, Matrix.mulVec, Finset.mul_sum]
    _ = ∑ i, ∑ j, tsum (fun k : ℕ => θ 0 * ((a i * Real.exp (-0.5 * θ 1 * x i ^ 2)) *
          (a j * Real.exp (-0.5 * θ 1 * x j ^ 2))) *
        ((θ 1 * (x i * x j)) ^ k / (Nat.factorial k : ℝ))) :=
        Finset.sum_congr rfl fun i _ => Finset.sum_congr rfl fun j _ =>
          exp_quad_term x θ a i j
    _ = ∑ i, tsum (fun k : ℕ => ∑ j, θ 0 * ((a i * Real.exp (-0.5 * θ 1 * x i ^ 2)) *
          (a j * Real.exp (-0.5 * θ 1 * x j ^ 2))) *
        ((θ 1 * (x i * x j)) ^ k / (Nat.factorial k : ℝ))) :=
        Finset.sum_congr rfl fun i _ => (tsum_sum fun j _ => hsumm i j).symm
    _ = tsum (fun k : ℕ => ∑ i, ∑ j, θ 0 * ((a i * Real.exp (-0.5 * θ 1 * x i ^ 2)) *
          (a j * Real.exp (-0.5 * θ 1 * x j ^ 2))) *
        ((θ 1 * (x i * x j)) ^ k / (Nat.factorial k : ℝ))) :=
        (tsum_sum fun i _ => summable_sum fun j _ => hsumm i j).symm
    _ = tsum (fun k : ℕ => θ 0 * (θ 1 ^ k / (Nat.factorial k : ℝ)) *
        (∑ i, (a i * Real.exp (-0.5 * θ 1 * x i ^ 2)) * x i ^ k) ^ 2) :=
        tsum_congr fun k =>
          exp_quad_sum_eq x θ (fun i => a i * Real.exp (-0.5 * θ 1 * x i ^ 2)) k

lemma exponential_cov_isHermitian {n : ℕ} (x : Fin n → ℝ) (θ : Fin 2 → ℝ) :
    (exponential_cov x x θ).IsHermitian := by
  show (exponential_cov x x θ)ᴴ = exponential_cov x x θ
  ext i j
  rw [Matrix.conjTranspose_apply, star_trivial]
  exact congrFun (congrFun (exponential_cov_self_transpose x θ) i) j

lemma exponential_cov_posDef {n : ℕ} (x : Fin n → ℝ) (hx : Function.Injective x)
    (θ : Fin 2 → ℝ) (h0 : 0 < θ 0) (h1 : 0 < θ 1) :
    (exponential_cov x x θ).PosDef := by
  refine ⟨exponential_cov_isHermitian x θ, fun a ha => ?_⟩
  rw [exponential_cov_quadratic_form]
  have hb : ∃ i, a i * Real.exp (-0.5 * θ 1 * x i ^ 2) ≠ 0 := by
    obtain ⟨i, hi⟩ := Function.ne_iff.mp ha
    exact ⟨i, mul_ne_zero hi (Real.exp_ne_zero _)⟩
  have hk : ∃ k : ℕ, (∑ i, (a i * Real.exp (-0.5 * θ 1 * x i ^ 2)) * x i ^ k) ≠ 0 := by
    by_contra hall
    push_neg at hall
    have hvdm : (Matrix.vandermonde x).det ≠ 0 :=
      Matrix.det_vandermonde_ne_zero_iff.mpr hx
    have hunit : IsUnit (Matrix.vandermonde x).det := isUnit_iff_ne_zero.mpr hvdm
    have hvec : (fun i => a i * Real.exp (-0.5 * θ 1 * x i ^ 2)) ᵥ*
        Matrix.vandermonde x = 0 := by
      funext j
      simpa [Matrix.vecMul, Matrix.dotProduct, Matrix.vandermonde] using hall (j : ℕ)
    have hb0 : (fun i => a i * Real.exp (-0.5 * θ 1 * x i ^ 2)) = 0 := by
      have h2 : (fun i => a i * Real.exp (-0.5 * θ 1 * x i ^ 2)) ᵥ*
          (Matrix.vandermonde x * (Matrix.vandermonde x)⁻¹) = 0 := by
        rw [← Matrix.vecMul_vecMul, hvec, Matrix.zero_vecMul]
      rwa [Matrix.mul_nonsing_inv _ hunit, Matrix.vecMul_one] at h2
    obtain ⟨i, hi⟩ := hb
    exact hi (congrFun hb0 i)
  obtain ⟨k0, hk0⟩ := hk
  have hG : Summable (fun k : ℕ => θ 0 * (θ 1 ^ k / (Nat.factorial k : ℝ)) *
      (∑ i, (a i * Real.exp (-0.5 * θ 1 * x i ^ 2)) * x i ^ k) ^ 2) := by
    refine (summable_sum fun i (_ : i ∈ Finset.univ) =>
      summable_sum fun j (_ : j ∈ Finset.univ) =>
        (Real.summable_pow_div_factorial (θ 1 * (x i * x j))).mul_left
          (θ 0 * ((a i * Real.exp (-0.5 * θ 1 * x i ^ 2)) *
            (a j * Real.exp (-0.5 * θ 1 * x j ^ 2))))).congr
      fun k => exp_quad_sum_eq x θ (fun i => a i * Real.exp (-0.5 * θ 1 * x i ^ 2)) k
  refine tsum_pos hG (fun k => ?_) k0 ?_
  · have hc : (0 : ℝ) ≤ θ 0 * (θ 1 ^ k / (Nat.factorial k : ℝ)) := by positivity
    exact mul_nonneg hc (sq_nonneg _)
  · have hs : 0 < (∑ i, (a i * Real.exp (-0.5 * θ 1 * x i ^ 2)) * x i ^ k0) ^ 2 :=
      pow_two_pos_of_ne_zero hk0
    have hc : (0 : ℝ) < θ 0 * (θ 1 ^ k0 / (Nat.factorial k0 : ℝ)) := by positivity
    exact mul_pos hc hs

/-! ## Claim C5 -/

/-- C5: for every noiseless squared-exponential kernel with positive
parameters and every non-empty list of distinct observed inputs with outputs
y, conditioning on the observed inputs themselves reproduces y exactly as the
posterior mean and gives an exactly zero posterior covariance (the claim's
"within tolerance" is exact in real arithmetic). -/
theorem conditional_interpolates_observations {n : ℕ} (hn : 0 < n)
    (x : Fin n → ℝ) (hx : Function.Injective x) (y : Fin n → ℝ)
    (θ : Fin 2 → ℝ) (h0 : 0 < θ 0) (h1 : 0 < θ 1) :
    (conditional x x y θ).1 = y ∧ (conditional x x y θ).2 = 0 := by
  have hpd := exponential_cov_posDef x hx θ h0 h1
  have hu : IsUnit (exponential_cov x x θ).det := hpd.det_pos.ne'.isUnit
  constructor
  · show ((exponential_cov x x θ)⁻¹ * (exponential_cov x x θ)ᵀ)ᵀ *ᵥ y = y
    rw [exponential_cov_self_transpose, Matrix.nonsing_inv_mul _ hu,
      Matrix.transpose_one, Matrix.one_mulVec]
  · show exponential_cov x x θ -
        exponential_cov x x θ *
          ((exponential_cov x x θ)⁻¹ * (exponential_cov x x θ)ᵀ) = 0
    rw [exponential_cov_self_transpose, Matrix.nonsing_inv_mul _ hu,
      Matrix.mul_one, sub_self]

/-- Witness for C5 at the claim's concrete scenario θ = [1, 10],
observedX = [1.0], observedY = [0.5]: the posterior mean is 0.5 and the
posterior variance is 0. -/
theorem conditional_interpolates_observations_witness :
    0 < 1 ∧ Function.Injective ![(1 : ℝ)] ∧
    0 < (![1, 10] : Fin 2 → ℝ) 0 ∧ 0 < (![1, 10] : Fin 2 → ℝ) 1 ∧
    ((conditional ![(1 : ℝ)] ![(1 : ℝ)] ![0.5] ![1, 10]).1 = ![0.5] ∧
      (conditional ![(1 : ℝ)] ![(1 : ℝ)] ![0.5] ![1, 10]).2 = 0) :=
  ⟨Nat.one_pos, fun a b _ => Subsingleton.elim a b,
    by norm_num [Matrix.cons_val_zero],
    by norm_num [Matrix.cons_val_one, Matrix.head_cons],
    conditional_interpolates_observations Nat.one_pos ![(1 : ℝ)]
      (fun a b _ => Subsingleton.elim a b) ![0.5] ![1, 10]
      (by norm_num [Matrix.cons_val_zero])
      (by norm_num [Matrix.cons_val_one, Matrix.head_cons])⟩

/-! ## Claim C10 -/

/-- C10: for every single query point x, kernel parameters θ, non-empty
observed inputs with outputs t, and symmetric positive-definite observed
covariance matrix σ, the variance returned by `predict` equals
`kernel(x,x,θ) - kᵀ · σ⁻¹ · k` with k the vector of kernel values between x
and the observed inputs, and is at most the prior variance
`kernel(x,x,θ) = θ[0]`: conditioning never increases the predictive
variance. -/
theorem predict_variance_bound {n : ℕ} (hn : 0 < n) (x : ℝ) (data : Fin n → ℝ)
    (θ : Fin 2 → ℝ) (σ : Matrix (Fin n) (Fin n) ℝ) (t : Fin n → ℝ)
    (hσ : σ.PosDef) :
    (predict x data exponential_cov_at θ σ t).2 =
      exponential_cov_at x x θ -
        dotProduct (fun i => exponential_cov_at x (data i) θ)
          (σ⁻¹ *ᵥ fun i => exponential_cov_at x (data i) θ) ∧
    (predict x data exponential_cov_at θ σ t).2 ≤ θ 0 := by
  have hform : (predict x data exponential_cov_at θ σ t).2 =
      exponential_cov_at x x θ -
        ((fun i => exponential_cov_at x (data i) θ) ᵥ* σ⁻¹) ⬝ᵥ
          (fun i => exponential_cov_at x (data i) θ) := rfl
  have hk0 : exponential_cov_at x x θ = θ 0 := by
    simp [exponential_cov_at]
  have hq : 0 ≤ ((fun i => exponential_cov_at x (data i) θ) ᵥ* σ⁻¹) ⬝ᵥ
      (fun i => exponential_cov_at x (data i) θ) := by
    have hps := hσ.inv.posSemidef
    have h2 := hps.2 (fun i => exponential_cov_at x (data i) θ)
    rwa [star_trivial, Matrix.dotProduct_mulVec] at h2
  constructor
  · rw [hform, Matrix.dotProduct_mulVec]
  · rw [hform, hk0]
    exact sub_le_self _ hq

/-- Witness for C10 with one observation at 0, θ = [1, 1] and σ the 1×1
identity matrix (which is positive definite). -/
theorem predict_variance_bound_witness :
    0 < 1 ∧ (1 : Matrix (Fin 1) (Fin 1) ℝ).PosDef ∧
    (predict 0 ![0] exponential_cov_at ![1, 1] 1 ![0]).2 ≤ (![1, 1] : Fin 2 → ℝ) 0 :=
  ⟨Nat.one_pos, Matrix.PosDef.one,
    (predict_variance_bound Nat.one_pos 0 ![0] ![1, 1] 1 ![0] Matrix.PosDef.one).2⟩
